import Mathlib

set_option maxRecDepth 100000

/-!
Shallow embedding of gepyto's locus indexing engine (`gepyto/db/index.py`):
the locus codec, the sampling estimator, the index builder (dense and
sparse modes), the index store and the locus resolver (`goto` /
`goto_fine`).

A text file is modelled as a list of characters and the file cursor as a
natural-number byte offset (the concrete inputs below are ASCII, so bytes
and characters coincide).  Python floats are modelled by exact rationals;
on every concrete input used below every float operation of the source is
exact (uniform line lengths, powers-of-two rates), so the rational model
agrees with the IEEE semantics there.  Loops carry an explicit fuel
argument so that every definition is executable; fuel exhaustion is
reported as an explicit error and never happens for the fuel budgets the
top-level wrappers supply.
-/

namespace GepytoIndex

/-- MAGIC_NUMBER from index.py: a locus is encoded as
`chrom_code * MAGIC_NUMBER + pos`. -/
def MAGIC_NUMBER : Int := 10 ^ 9

/-! ### File model -/

/-- Characters of one line, up to and including the first newline
(no newline if the file ends first): the unit `f.readline()` returns. -/
def takeLine : List Char → List Char
  | [] => []
  | c :: cs => if c = '\n' then [c] else c :: takeLine cs

/-- Model of `f.readline()` at cursor `pos`: returns the line (with its
trailing newline when present; `""` at end of file) and the new cursor. -/
def readline (content : List Char) (pos : Nat) : String × Nat :=
  let l := takeLine (content.drop pos)
  (String.mk l, pos + l.length)

/-! ### Line parsing (`_get_locus`) -/

/-- Whitespace characters stripped by Python's `str.rstrip()` and
`str.strip()` (restricted to the ASCII ones). -/
def isPyWhitespace (c : Char) : Bool :=
  c = ' ' || c = '\t' || c = '\n' || c = '\r' || c = '\x0b' || c = '\x0c'

/-- Python `line.rstrip()`: drop trailing whitespace. -/
def rstripL (s : List Char) : List Char :=
  ((s.reverse).dropWhile isPyWhitespace).reverse

/-- Does the list begin with the given pattern?  (Model of Python's
`str.startswith`.) -/
def beginsWith : List Char → List Char → Bool
  | [], _ => true
  | _ :: _, [] => false
  | p :: ps, c :: cs => p = c && beginsWith ps cs

/-- One split step of Python's `str.split(sep)` for a nonempty separator,
with fuel (structural recursion so that the kernel can evaluate it). -/
def splitOnAuxL (sep : List Char) : Nat → List Char → List Char → List (List Char)
  | 0, _, acc => [acc.reverse]
  | _ + 1, [], acc => [acc.reverse]
  | fuel + 1, c :: cs, acc =>
    if beginsWith sep (c :: cs) then
      acc.reverse :: splitOnAuxL sep fuel ((c :: cs).drop sep.length) []
    else splitOnAuxL sep fuel cs (c :: acc)

/-- Python `s.split(sep)` for a nonempty separator. -/
def splitOnL (s sep : List Char) : List (List Char) :=
  splitOnAuxL sep (s.length + 1) s []

/-- Decimal digits to a natural number (`none` on empty input or on any
non-digit character). -/
def digitsToNatAux : List Char → Nat → Option Nat
  | [], acc => some acc
  | c :: cs, acc =>
    if c.isDigit then digitsToNatAux cs (acc * 10 + (c.toNat - 48)) else none

/-- Parse a nonempty all-digit string. -/
def digitsToNat? : List Char → Option Nat
  | [] => none
  | s => digitsToNatAux s 0

/-- Python `s.strip()`: drop surrounding whitespace. -/
def stripL (s : List Char) : List Char :=
  ((s.dropWhile isPyWhitespace).reverse.dropWhile isPyWhitespace).reverse

/-- Python `int(s)`: strip surrounding whitespace, allow an optional sign,
then decimal digits. -/
def pyInt (s : List Char) : Option Int :=
  match stripL s with
  | '-' :: rest => (digitsToNat? rest).map (fun n => -(n : Int))
  | '+' :: rest => (digitsToNat? rest).map (fun n => (n : Int))
  | t => (digitsToNat? t).map (fun n => (n : Int))

/-- Errors that `_get_locus` can raise: `EndOfFile` on an empty line, and
`malformed` for Python's `IndexError` (missing column) or `ValueError`
(non-numeric position). -/
inductive LocusErr where
  | endOfFile
  | malformed
deriving Repr, DecidableEq

/-- Embedding of `_get_locus(line, chrom_col, pos_col, delimiter)`:
raise `EndOfFile` on an empty line, otherwise rstrip, split on the
delimiter, take the chromosome column (stripping a leading `"chr"`) and
parse the position column as an integer. -/
def get_locus (line : String) (chrom_col pos_col : Nat) (delimiter : String) :
    Except LocusErr (String × Int) :=
  if line = "" then .error .endOfFile
  else
    let fields := splitOnL (rstripL line.toList) delimiter.toList
    match fields[chrom_col]?, fields[pos_col]? with
    | some chrom, some posStr =>
      let chrom := if beginsWith ['c', 'h', 'r'] chrom then chrom.drop 3 else chrom
      match pyInt posStr with
      | some p => .ok (String.mk chrom, p)
      | none => .error .malformed
    | _, _ => .error .malformed

/-! ### Locus codec -/

/-- First-match lookup in an insertion-ordered association list, the model
of the `encoding["chromosomes"]` dict (and of the persisted
`chrom_codes`). -/
def lookupChrom : List (String × Int) → String → Option Int
  | [], _ => none
  | (a, b) :: t, c => if a = c then some b else lookupChrom t c

/-- Build-time codec state: `encoding = {"current_key": 0, "chromosomes": {}}`. -/
structure EncState where
  current_key : Int
  chromosomes : List (String × Int)
deriving Repr, DecidableEq

/-- Embedding of the builder-local `encode_locus(chrom, pos)`: allocate the
next key for an unseen chromosome, then return
`chromosomes[chrom] * MAGIC_NUMBER + pos` together with the new state. -/
def encode_locus (st : EncState) (chrom : String) (pos : Int) : Int × EncState :=
  match lookupChrom st.chromosomes chrom with
  | some k => (k * MAGIC_NUMBER + pos, st)
  | none =>
    let k := st.current_key + 1
    (k * MAGIC_NUMBER + pos, ⟨k, st.chromosomes ++ [(chrom, k)]⟩)

/-! ### Index metadata -/

/-- The `info` dict persisted with the index: delimiter, chromosome and
position columns, and the chromosome-code map. -/
structure Info where
  chrom_col : Nat
  pos_col : Nat
  delimiter : String
  chrom_codes : List (String × Int)
deriving Repr, DecidableEq

/-- Locus decoded from the line starting at offset `o`, using the stored
column and delimiter metadata (the parser `goto_fine` applies). -/
def locusAt (content : List Char) (info : Info) (o : Nat) :
    Except LocusErr (String × Int) :=
  get_locus (readline content o).1 info.chrom_col info.pos_col info.delimiter

/-! ### Locus resolver (`goto` / `goto_fine`) -/

/-- Errors the resolver can raise: the `ChromosomeNotIndexed` exception,
propagated parse errors during the bounded scan, out-of-fuel, and numpy
`IndexError` on an empty entry array. -/
inductive GotoErr where
  | chromosomeNotIndexed
  | malformed
  | indexError
  | fuel
deriving Repr, DecidableEq

/-- Embedding of `bisect.bisect_left(a, x)` (the exact lo/hi binary-search
loop of the Python library, with fuel). -/
def bisectLeft (a : List Int) (x : Int) : Nat → Nat → Nat → Nat
  | 0, lo, _ => lo
  | fuel + 1, lo, hi =>
    if lo < hi then
      let mid := (lo + hi) / 2
      if a.getD mid 0 < x then bisectLeft a x fuel (mid + 1) hi
      else bisectLeft a x fuel lo mid
    else lo

/-- Numpy-style row access `index[i]` with Python negative-index
wraparound; `none` models `IndexError`. -/
def pyGetRow (entries : List (Int × Nat)) (i : Int) : Option (Int × Nat) :=
  if 0 ≤ i then entries[i.toNat]?
  else if 0 ≤ (entries.length : Int) + i then entries[((entries.length : Int) + i).toNat]?
  else none

/-- Outcome of `goto`'s bracket selection (lines 329-360 of index.py):
either a direct hit at an entry offset, or a bounded scan with a left
offset and an optional right offset (`none` models the `+infinity` used
when the right boundary is not in the index), or a numpy `IndexError`. -/
inductive Bracket where
  | exact (off : Nat)
  | scan (left : Nat) (right : Option Nat)
  | idxErr
deriving Repr, DecidableEq

/-- Bracket selection of `goto`, mirroring the source branch for branch:
`boundary = bisect_left(index[:, 0], code)`; if `boundary == len(index)`
scan from the last entry with an unbounded right side; else if
`index[boundary, 0] == code` it is a direct hit; otherwise (including
`boundary == 0`, where the source only logs and falls through, so that
`index[boundary - 1]` wraps around to the last row) scan from
`index[boundary - 1, 1]` to `index[boundary + 1, 1]`, the right side
falling back to infinity when `boundary + 1` is out of range. -/
def gotoBracket (entries : List (Int × Nat)) (code : Int) : Bracket :=
  let boundary := bisectLeft (entries.map Prod.fst) code (entries.length + 2) 0 entries.length
  if boundary = entries.length then
    match pyGetRow entries (-1) with
    | some lastRow => .scan lastRow.2 none
    | none => .idxErr
  else if (entries.map Prod.fst).getD boundary 0 = code then
    match entries[boundary]? with
    | some row => .exact row.2
    | none => .idxErr
  else
    match pyGetRow entries ((boundary : Int) - 1) with
    | none => .idxErr
    | some leftRow =>
      let right : Option Nat := entries[boundary + 1]?.map Prod.snd
      .scan leftRow.2 right

/-- Test `here > right` of `goto_fine`, where `none` models the float
`+infinity` right boundary (never exceeded). -/
def pastRight (right : Option Nat) (here : Nat) : Bool :=
  match right with
  | none => false
  | some r => r < here

/-- Embedding of `goto_fine(f, chrom, pos, left, right, info)`'s scan loop
from cursor `cur`: read a line, return `(True, here)` on a locus match
(the source then seeks back to `here`), `False` at end of file or once
`here` passes a finite right boundary; parse errors propagate. -/
def gotoFine (content : List Char) (info : Info) (chrom : String) (pos : Int)
    (right : Option Nat) : Nat → Nat → Except GotoErr (Bool × Nat)
  | 0, _ => .error .fuel
  | fuel + 1, cur =>
    let here := cur
    let (line, cur') := readline content cur
    match get_locus line info.chrom_col info.pos_col info.delimiter with
    | .error .endOfFile => .ok (false, cur')
    | .error .malformed => .error .malformed
    | .ok (c, p) =>
      if c = chrom ∧ p = pos then .ok (true, here)
      else if pastRight right here then .ok (false, cur')
      else gotoFine content info chrom pos right fuel cur'

/-- Chromosome normalization of `goto`: `str(chrom)` with a leading
`"chr"` stripped. -/
def normChrom (chrom : String) : String :=
  if beginsWith ['c', 'h', 'r'] chrom.toList then String.mk (chrom.toList.drop 3) else chrom

/-- Embedding of `goto(f, index, chrom, pos)`: normalize the chromosome
label, look its code up read-only in the persisted map (raising
`ChromosomeNotIndexed` when absent), encode the target, select the
bracket and either seek to a direct hit or run the bounded scan.  The
returned pair is the boolean result together with the final cursor
position. -/
def goto (content : List Char) (info : Info) (entries : List (Int × Nat))
    (chrom : String) (pos : Int) (fuel : Nat) : Except GotoErr (Bool × Nat) :=
  let chrom := normChrom chrom
  match lookupChrom info.chrom_codes chrom with
  | none => .error .chromosomeNotIndexed
  | some chrom_code =>
    let code := chrom_code * MAGIC_NUMBER + pos
    match gotoBracket entries code with
    | .idxErr => .error .indexError
    | .exact off => .ok (true, off)
    | .scan l r => gotoFine content info chrom pos r fuel l

/-! ### Index builder (`build_index`) -/

/-- Errors of `build_index`: the `assert chrom_col != pos_col` failure, a
propagated `EndOfFile` (first-line read on an empty data region), a
propagated parse error, the fatal `Exception("This file is not sorted.")`,
and out-of-fuel. -/
inductive BuildErr where
  | assertColsEqual
  | endOfFile
  | malformed
  | notSorted
  | fuel
deriving Repr, DecidableEq

/-- Lift a `_get_locus` error into a build error. -/
def liftLocusErr : LocusErr → BuildErr
  | .endOfFile => .endOfFile
  | .malformed => .malformed

/-- Skip `n` header lines with `f.readline()`, returning the new cursor. -/
def skipLines (content : List Char) (pos : Nat) : Nat → Nat
  | 0 => pos
  | n + 1 => skipLines content (readline content pos).2 n

/-- The `ignore_startswith` loop: keep reading while the line starts with
the given string, then seek back to the start of the first line that does
not.  (On the prefix `""` the source loops forever at end of file; the
fuel error models that divergence.) -/
def skipSW (content : List Char) (p : String) : Nat → Nat → Except BuildErr Nat
  | 0, _ => .error .fuel
  | fuel + 1, cp =>
    let (line, q) := readline content cp
    if beginsWith p.toList line.toList then skipSW content p fuel q else .ok cp

/-- Exact numbers standing in for Python floats: unnormalized fractions
with a positive denominator (every operation below preserves positivity).
Normalization is avoided so that all arithmetic stays on the primitive
integer operations.  On every concrete input used in this development the
float computations of the source are exact, so this exact model agrees
with the IEEE semantics there. -/
structure Frac where
  num : Int
  den : Int
deriving Repr, DecidableEq

/-- Integer as a fraction. -/
def Frac.ofInt (n : Int) : Frac := ⟨n, 1⟩

/-- Natural number as a fraction. -/
def Frac.ofNat (n : Nat) : Frac := ⟨(n : Int), 1⟩

/-- Fraction addition. -/
def Frac.add (a b : Frac) : Frac := ⟨a.num * b.den + b.num * a.den, a.den * b.den⟩

/-- Fraction multiplication. -/
def Frac.mul (a b : Frac) : Frac := ⟨a.num * b.num, a.den * b.den⟩

/-- Fraction division.  Division by zero yields `0`; the float semantics
there is `nan`/`inf` instead, and no property proved below depends on a
division-by-zero value (on those paths the value is unused or the code
fails earlier). -/
def Frac.div (a b : Frac) : Frac :=
  if b.num = 0 then ⟨0, 1⟩
  else if b.num < 0 then Frac.mul a ⟨-b.den, -b.num⟩
  else Frac.mul a ⟨b.den, b.num⟩

/-- Value comparison of fractions (cross multiplication; denominators are
positive by construction). -/
def Frac.lt (a b : Frac) : Bool := decide (a.num * b.den < b.num * a.den)

/-- Value equality of fractions (cross multiplication). -/
def Frac.valEq (a b : Frac) : Bool := decide (a.num * b.den = b.num * a.den)

/-- Floor of a fraction (denominator positive by construction). -/
def Frac.floor (a : Frac) : Int := a.num.fdiv a.den

/-- Truncation `int(x)` / text-file `seek` of a nonnegative float value. -/
def pyTrunc (q : Frac) : Nat := q.floor.toNat

/-- One probe of the sampling estimator at `start + int(jump)`: seek
there, throw away the (likely partial) line, then measure the byte length
of the next full line. -/
def sampleLen (content : List Char) (start : Nat) (jump : Frac) : Nat :=
  let p := start + pyTrunc jump
  let (_, q) := readline content p
  let line_start := q
  let (_, r) := readline content q
  r - line_start

/-- The sampling estimator (lines 114-125 of index.py): probe the 100
offsets `np.linspace(0, 0.9 * size, 100)` (whose `i`-th element is
`0.9 * size / 99 * i`) and return the mean measured line length
(`np.mean(line_length)`). -/
def meanLineLength (content : List Char) (start size : Nat) : Frac :=
  let jumps := (List.range 100).map
    (fun i => Frac.mul (Frac.div ⟨9 * (size : Int), 10⟩ (Frac.ofNat 99)) (Frac.ofNat i))
  let lens := jumps.map (fun j => Frac.ofNat (sampleLen content start j))
  Frac.div (lens.foldl Frac.add (Frac.ofNat 0)) (Frac.ofNat 100)

/-- Parameters of `build_index`. -/
structure BuildParams where
  chrom_col : Nat
  pos_col : Nat
  delimiter : String
  skip_lines : Nat
  index_rate : Frac
  ignore_startswith : Option String
deriving Repr, DecidableEq

/-- The dense-mode update for one decoded code (lines 173-178 of
index.py): `if index[-1][0] > code: raise`, `elif index[-1][0] == code:
pass`, `else: index.append((code, tell))`. -/
def denseUpdate (index : List (Int × Nat)) (code : Int) (tell : Nat) :
    Except BuildErr (List (Int × Nat)) :=
  let last := index.getLast?.getD (0, 0)
  if last.1 > code then .error .notSorted
  else if last.1 = code then .ok index
  else .ok (index ++ [(code, tell)])

/-- The sparse-mode check and append for one decoded code (lines 204-208
of index.py): `if index[-1][0] > code: raise`, then
`index.append((code, tell))` — note that, unlike the dense mode, an equal
code is appended rather than skipped or rejected. -/
def sparseUpdate (index : List (Int × Nat)) (code : Int) (tell : Nat) :
    Except BuildErr (List (Int × Nat)) :=
  let last := index.getLast?.getD (0, 0)
  if last.1 > code then .error .notSorted
  else .ok (index ++ [(code, tell)])

/-- The dense indexing loop (`index_rate == 1`, lines 165-181): read every
line sequentially; `tell` is the offset of the line being processed. -/
def denseLoop (content : List Char) (cc pc : Nat) (delim : String) :
    Nat → Nat → List (Int × Nat) → EncState →
    Except BuildErr (List (Int × Nat) × EncState)
  | 0, _, _, _ => .error .fuel
  | fuel + 1, tell, index, enc =>
    let (line, pos') := readline content tell
    if line = "" then .ok (index, enc)
    else
      match get_locus line cc pc delim with
      | .error e => .error (liftLocusErr e)
      | .ok (chrom, pos) =>
        let (code, enc') := encode_locus enc chrom pos
        match denseUpdate index code tell with
        | .error e => .error e
        | .ok index' => denseLoop content cc pc delim fuel pos' index' enc'

/-- The sparse duplicate-skip loop (lines 195-199): `tell` is captured
before each read, and lines equal to the current locus are skipped until
a new locus appears; returns that locus, the offset of its line, and the
cursor after it. -/
def dupSkip (content : List Char) (cc pc : Nat) (delim : String) :
    Nat → String × Int → Nat → Except BuildErr ((String × Int) × Nat × Nat)
  | 0, _, _ => .error .fuel
  | fuel + 1, cur, pos =>
    let tell := pos
    let (line, pos') := readline content pos
    match get_locus line cc pc delim with
    | .error e => .error (liftLocusErr e)
    | .ok nxt =>
      if nxt = cur then dupSkip content cc pc delim fuel cur pos'
      else .ok (nxt, tell, pos')

/-- The sparse indexing loop (`index_rate < 1`, lines 183-212): while
`current_position + seek_jump < size + start`, jump there, discard the
partial line, skip duplicate loci, verify `index[-1][0] > code` fails,
append and move the current position to the appended line.  An
`EndOfFile` inside the probe breaks out of the loop (success). -/
def sparseLoop (content : List Char) (cc pc : Nat) (delim : String)
    (seek_jump : Frac) (start size : Nat) :
    Nat → Nat → List (Int × Nat) → EncState →
    Except BuildErr (List (Int × Nat) × EncState)
  | 0, _, _, _ => .error .fuel
  | fuel + 1, current_position, index, enc =>
    if Frac.lt (Frac.add (Frac.ofNat current_position) seek_jump)
        (Frac.ofNat (size + start)) then
      let landing := pyTrunc (Frac.add (Frac.ofNat current_position) seek_jump)
      let (_, q) := readline content landing
      let (lineA, qA) := readline content q
      match get_locus lineA cc pc delim with
      | .error .endOfFile => .ok (index, enc)
      | .error e => .error (liftLocusErr e)
      | .ok cur =>
        match dupSkip content cc pc delim (content.length + 1) cur qA with
        | .error .endOfFile => .ok (index, enc)
        | .error e => .error e
        | .ok (nxt, tell, _) =>
          let (code, enc') := encode_locus enc nxt.1 nxt.2
          match sparseUpdate index code tell with
          | .error e => .error e
          | .ok index' =>
            sparseLoop content cc pc delim seek_jump start size fuel tell index' enc'
    else .ok (index, enc)

/-- Start of the data region: cursor after skipping `skip_lines` header
lines and the lines starting with `ignore_startswith`. -/
def dataStart (content : List Char) (p : BuildParams) : Except BuildErr Nat :=
  let pos0 := skipLines content 0 p.skip_lines
  match p.ignore_startswith with
  | none => .ok pos0
  | some pre => skipSW content pre (content.length + 1) pos0

/-- The scanning phase of `build_index(fn, ...)` (lines 89-212): check the
column assertion, find the data start, run the sampling estimator, index
the first data line unconditionally, then run the dense or the sparse
loop.  Returns the metadata and the entry array that the store phase
would persist.  (The Python float divisions `size / line_length` and
`size / target_num_lines` are modelled by rational division, whose `0 / 0
= 0` differs from the float `nan`/`inf`; on every path proved about below
either the divisor is nonzero or the value is unused.) -/
def buildScan (content : List Char) (p : BuildParams) :
    Except BuildErr (Info × List (Int × Nat)) :=
  if p.chrom_col = p.pos_col then .error .assertColsEqual
  else
    match dataStart content p with
    | .error e => .error e
    | .ok start =>
      let size := content.length - start
      let line_length := meanLineLength content start size
      let approx_num_lines := Frac.div (Frac.ofNat size) line_length
      let enc0 : EncState := ⟨0, []⟩
      let (line1, pos1) := readline content start
      match get_locus line1 p.chrom_col p.pos_col p.delimiter with
      | .error e => .error (liftLocusErr e)
      | .ok (chrom1, posn1) =>
        let (code1, enc1) := encode_locus enc0 chrom1 posn1
        let index0 := [(code1, start)]
        let target_num_lines := Frac.mul p.index_rate approx_num_lines
        let seek_jump := Frac.div (Frac.ofNat size) target_num_lines
        match
          if Frac.valEq p.index_rate (Frac.ofInt 1) then
            denseLoop content p.chrom_col p.pos_col p.delimiter
              (content.length + 1) pos1 index0 enc1
          else
            sparseLoop content p.chrom_col p.pos_col p.delimiter
              seek_jump start size (content.length + 2) pos1 index0 enc1
        with
        | .error e => .error e
        | .ok (index, encF) =>
          .ok (⟨p.chrom_col, p.pos_col, p.delimiter, encF.chromosomes⟩, index)

/-! ### Index store

The source persists `pickle.dumps(info)` followed by `np.save(f, index)`
into one sidecar file, and the loader finds the section boundary by
scanning for the first occurrence of the 6-byte numpy magic
`b"\x93NUMPY"`.  The store is modelled at the byte level (bytes are
natural numbers): the metadata record is serialized with an injective
encoding whose bytes are all `< 128` — as in the protocol-0 ASCII pickles
of the Python 2 `cPickle` the source targets — while the numpy magic
starts with the byte `0x93 = 147`, so the scan provably finds exactly the
section boundary.  Entry arrays are serialized as a length-prefixed flat
list of `(code, offset)` pairs, modelling the fixed-stride `int64` numpy
array. -/

/-- Base-127 little-endian digits of a natural number (all digits `< 127`),
with fuel for structural recursion; `natDigits` below supplies `n` itself,
which is always enough fuel. -/
def natDigitsAux : Nat → Nat → List Nat
  | 0, _ => []
  | fuel + 1, n => if n = 0 then [] else n % 127 :: natDigitsAux fuel (n / 127)

/-- Base-127 little-endian digits of a natural number. -/
def natDigits (n : Nat) : List Nat := natDigitsAux n n

/-- Encode a natural number: its digits followed by the terminator
byte `127`. -/
def encNat (n : Nat) : List Nat := natDigits n ++ [127]

/-- Decode a natural number encoded by `encNat`, returning the value and
the remaining bytes. -/
def decNat : List Nat → Option (Nat × List Nat)
  | [] => none
  | b :: bs =>
    if b = 127 then some (0, bs)
    else
      match decNat bs with
      | some (v, r) => some (b + 127 * v, r)
      | none => none

/-- Encode an integer: a sign byte (`1` for negative, `0` otherwise)
followed by the encoded absolute value. -/
def encInt (i : Int) : List Nat :=
  (if i < 0 then 1 else 0) :: encNat i.natAbs

/-- Decode an integer encoded by `encInt`. -/
def decInt : List Nat → Option (Int × List Nat)
  | [] => none
  | s :: bs =>
    match decNat bs with
    | some (v, r) => some (if s = 1 then -(v : Int) else (v : Int), r)
    | none => none

/-- Encode a character list: each codepoint as an encoded natural. -/
def encChars (cs : List Char) : List Nat :=
  (cs.map (fun c => encNat c.toNat)).flatten

/-- Decode `k` characters. -/
def decChars : Nat → List Nat → Option (List Char × List Nat)
  | 0, bs => some ([], bs)
  | k + 1, bs =>
    match decNat bs with
    | some (v, r) =>
      match decChars k r with
      | some (cs, r') => some (Char.ofNat v :: cs, r')
      | none => none
    | none => none

/-- Encode a string: its length, then its characters. -/
def encString (s : String) : List Nat :=
  encNat s.toList.length ++ encChars s.toList

/-- Decode a string encoded by `encString`. -/
def decString (bs : List Nat) : Option (String × List Nat) :=
  match decNat bs with
  | some (k, r) =>
    match decChars k r with
    | some (cs, r') => some (String.mk cs, r')
    | none => none
  | none => none

/-- Encode the chromosome-code pairs of the metadata record. -/
def encPairs (ps : List (String × Int)) : List Nat :=
  (ps.map (fun q => encString q.1 ++ encInt q.2)).flatten

/-- Decode `k` chromosome-code pairs. -/
def decPairs : Nat → List Nat → Option (List (String × Int) × List Nat)
  | 0, bs => some ([], bs)
  | k + 1, bs =>
    match decString bs with
    | some (a, r) =>
      match decInt r with
      | some (b, r') =>
        match decPairs k r' with
        | some (ps, r'') => some ((a, b) :: ps, r'')
        | none => none
      | none => none
    | none => none

/-- Serialize the metadata record (the model of `pickle.dumps(info)`): all
produced bytes are `< 128`. -/
def encInfo (info : Info) : List Nat :=
  encNat info.chrom_col ++ encNat info.pos_col ++ encString info.delimiter ++
    encNat info.chrom_codes.length ++ encPairs info.chrom_codes

/-- Deserialize the metadata record (the model of `pickle.loads`; like
`pickle.loads`, trailing bytes after the record are ignored). -/
def decInfo (bs : List Nat) : Option Info :=
  match decNat bs with
  | some (cc, r1) =>
    match decNat r1 with
    | some (pc, r2) =>
      match decString r2 with
      | some (delim, r3) =>
        match decNat r3 with
        | some (k, r4) =>
          match decPairs k r4 with
          | some (ps, _) => some ⟨cc, pc, delim, ps⟩
          | none => none
        | none => none
      | none => none
    | none => none
  | none => none

/-- The numpy format magic `b"\x93NUMPY"`; its first byte `0x93 = 147` is
not an ASCII byte. -/
def NUMPY_MAGIC : List Nat := [147, 78, 85, 77, 80, 89]

/-- Serialize the entry array (the model of `np.save(f, index)`): the
magic followed by a length-prefixed list of `(code, offset)` pairs. -/
def npSave (entries : List (Int × Nat)) : List Nat :=
  NUMPY_MAGIC ++ encNat entries.length ++
    (entries.map (fun e => encInt e.1 ++ encNat e.2)).flatten

/-- Decode `k` entries. -/
def decEntries : Nat → List Nat → Option (List (Int × Nat) × List Nat)
  | 0, bs => some ([], bs)
  | k + 1, bs =>
    match decInt bs with
    | some (c, r) =>
      match decNat r with
      | some (o, r') =>
        match decEntries k r' with
        | some (es, r'') => some ((c, o) :: es, r'')
        | none => none
      | none => none
    | none => none

/-- Deserialize the entry array (the model of `np.load(f)`): check the
magic, then read the length-prefixed pairs. -/
def npLoad (bs : List Nat) : Option (List (Int × Nat)) :=
  if bs.take 6 = NUMPY_MAGIC then
    match decNat (bs.drop 6) with
    | some (k, r) =>
      match decEntries k r with
      | some (es, _) => some es
      | none => none
    | none => none
  else none

/-- The sidecar contents written by `build_index`: the serialized metadata
record followed directly by the numpy save, with no explicit boundary. -/
def serializeIndex (info : Info) (entries : List (Int × Nat)) : List Nat :=
  encInfo info ++ npSave entries

/-- The boundary scan of `get_index` (lines 249-257): starting from
`i = 0`, read the 6 bytes at offset `i`; an empty read means the magic
was never found (`Exception("Invalid format for the index.")`); a chunk
equal to the magic ends the scan at `i`. -/
def findMagic (bs : List Nat) : Nat → Nat → Option Nat
  | 0, _ => none
  | fuel + 1, i =>
    let chunk := (bs.drop i).take 6
    if chunk = NUMPY_MAGIC then some i
    else if chunk = [] then none
    else findMagic bs fuel (i + 1)

/-- Load failure (`Exception("Invalid format for the index.")` or an
undecodable section). -/
inductive LoadErr where
  | invalidFormat
deriving Repr, DecidableEq

/-- Embedding of `get_index(fn)`'s loading phase: scan the sidecar bytes
for the numpy magic, unpickle everything before it as the metadata
record, and load the numpy array from the magic onwards.  Only the
sidecar bytes are consumed — the original source file is not an input. -/
def getIndex (bs : List Nat) : Except LoadErr (Info × List (Int × Nat)) :=
  match findMagic bs (bs.length + 1) 0 with
  | none => .error .invalidFormat
  | some i =>
    match decInfo (bs.take i) with
    | none => .error .invalidFormat
    | some info =>
      match npLoad (bs.drop i) with
      | none => .error .invalidFormat
      | some entries => .ok (info, entries)

/-- Sidecar path derivation `_get_index_fn`: the source path plus the
fixed `".gtidx"` suffix (the `os.path.abspath` normalization and the
existence check are not modelled). -/
def get_index_fn (fn : String) : String := fn ++ ".gtidx"

/-- Full `build_index` including its file-system effect: the scanning
phase runs first, and only on success is the sidecar opened for writing.
The second component lists the performed writes as (path, bytes) pairs. -/
def buildIndexRun (fn : String) (content : List Char) (p : BuildParams) :
    Except BuildErr String × List (String × List Nat) :=
  let idx_fn := get_index_fn fn
  match buildScan content p with
  | .error e => (.error e, [])
  | .ok (info, index) => (.ok idx_fn, [(idx_fn, serializeIndex info index)])

/-! ### Line structure and index well-formedness -/

/-- All line-start offsets of `content` reachable by repeated `readline`
from `pos` (fuel-based; the end-of-file position is included as the final
element). -/
def lineStartsFrom (content : List Char) : Nat → Nat → List Nat
  | 0, _ => []
  | fuel + 1, pos =>
    let (line, pos') := readline content pos
    if line = "" then [pos] else pos :: lineStartsFrom content fuel pos'

/-- All line-start offsets of `content` (from offset 0). -/
def lineStarts (content : List Char) : List Nat :=
  lineStartsFrom content (content.length + 1) 0

/-- Well-formedness of one persisted index entry with respect to the
source file: its offset is a line start, the line there decodes to a
locus whose position is in `[0, MAGIC_NUMBER)` and whose chromosome is in
the persisted map with exactly the entry's code. -/
def wfEntryB (content : List Char) (info : Info) (e : Int × Nat) : Bool :=
  decide (e.2 ∈ lineStarts content) &&
    (match locusAt content info e.2 with
     | .ok (c, p) =>
       decide (0 ≤ p) && decide (p < MAGIC_NUMBER) &&
         (match lookupChrom info.chrom_codes c with
          | some k => decide (e.1 = k * MAGIC_NUMBER + p)
          | none => false)
     | .error _ => false)

/-- Well-formedness of a loaded index with respect to the source file. -/
def WfIndex (content : List Char) (info : Info) (entries : List (Int × Nat)) : Prop :=
  ∀ e ∈ entries, wfEntryB content info e = true

/-- Injectivity of the persisted chromosome-code map (codes are allocated
uniquely at build time). -/
def MapInj (info : Info) : Prop :=
  ∀ p ∈ info.chrom_codes, ∀ q ∈ info.chrom_codes, p.2 = q.2 → p.1 = q.1

instance (content : List Char) (info : Info) (entries : List (Int × Nat)) :
    Decidable (WfIndex content info entries) :=
  inferInstanceAs (Decidable (∀ e ∈ entries, wfEntryB content info e = true))

instance (info : Info) : Decidable (MapInj info) :=
  inferInstanceAs
    (Decidable (∀ p ∈ info.chrom_codes, ∀ q ∈ info.chrom_codes, p.2 = q.2 → p.1 = q.1))

/-! ### Concrete fixtures

`spFile` is an eleven-line file with uniform five-byte lines whose
positions are `10, 11, 12, 13, 20, 30, 40, 40, 40, 30, 90` — note the
out-of-order `30` on the tenth line.  With `index_rate = 1/2` every float
value of the source build is exact (all sampled lines measure 5 bytes, so
`seek_jump = 10` exactly), and the probes land on lines 3 and 7. -/

/-- Sparse fixture file. -/
def spFile : List Char :=
  ("1\t10\n1\t11\n1\t12\n1\t13\n1\t20\n1\t30\n1\t40\n1\t40\n1\t40\n1\t30\n1\t90\n").toList

/-- Sparse fixture parameters (`index_rate = 1/2`). -/
def spParams : BuildParams := ⟨0, 1, "\t", 0, ⟨1, 2⟩, none⟩

/-- Dense fixture file: a sorted file with one duplicated locus. -/
def denseFile : List Char := ("1\t5\n1\t5\n1\t7\n2\t3\n").toList

/-- Dense fixture parameters (`index_rate = 1`). -/
def denseParams : BuildParams := ⟨0, 1, "\t", 0, ⟨1, 1⟩, none⟩

/-- Resolver fixture file: two sorted data lines. -/
def c2Content : List Char := ("1\t10\n1\t20\n").toList

/-- Resolver fixture metadata. -/
def c2Info : Info := ⟨0, 1, "\t", [("1", 1)]⟩

/-- Resolver fixture entries (the dense index of `c2Content`). -/
def c2Entries : List (Int × Nat) := [(1000000010, 0), (1000000020, 5)]

/-- Three-entry index used for the interior-bracket case. -/
def c1Entries : List (Int × Nat) := [(1000000010, 0), (1000000020, 5), (1000000030, 10)]

/-! ### Store round-trip lemmas -/

theorem natDigitsAux_lt (fuel : Nat) : ∀ (n : Nat), ∀ b ∈ natDigitsAux fuel n, b < 127 := by
  induction fuel with
  | zero => intro n b hb; simp [natDigitsAux] at hb
  | succ fuel ih =>
    intro n b hb
    by_cases h : n = 0
    · simp [natDigitsAux, h] at hb
    · simp only [natDigitsAux, if_neg h, List.mem_cons] at hb
      rcases hb with hb | hb
      · subst hb; exact Nat.mod_lt _ (by omega)
      · exact ih _ b hb

theorem decNat_digits (fuel : Nat) : ∀ (n : Nat), n ≤ fuel → ∀ (r : List Nat),
    decNat (natDigitsAux fuel n ++ 127 :: r) = some (n, r) := by
  induction fuel with
  | zero =>
    intro n hn r
    interval_cases n
    simp [natDigitsAux, decNat]
  | succ fuel ih =>
    intro n hn r
    by_cases h : n = 0
    · subst h; simp [natDigitsAux, decNat]
    · have hmod : n % 127 ≠ 127 := by
        have := Nat.mod_lt n (show 0 < 127 by omega)
        omega
      have hdiv : n / 127 ≤ fuel := by
        have := Nat.div_lt_self (Nat.pos_of_ne_zero h) (show 1 < 127 by omega)
        omega
      simp only [natDigitsAux, if_neg h, List.cons_append, decNat, if_neg hmod,
        ih (n / 127) hdiv r]
      have := Nat.mod_add_div n 127
      simp only [Option.some.injEq, Prod.mk.injEq, and_true]
      omega

theorem decNat_enc (n : Nat) (r : List Nat) : decNat (encNat n ++ r) = some (n, r) := by
  have := decNat_digits n n le_rfl r
  simpa [encNat, natDigits, List.append_assoc] using this

theorem encNat_lt (n : Nat) : ∀ b ∈ encNat n, b < 128 := by
  intro b hb
  simp only [encNat, List.mem_append, List.mem_singleton] at hb
  rcases hb with hb | hb
  · have := natDigitsAux_lt n n b hb; omega
  · omega

theorem decInt_enc (i : Int) (r : List Nat) : decInt (encInt i ++ r) = some (i, r) := by
  by_cases h : i < 0
  · simp only [encInt, if_pos h, List.cons_append, decInt, decNat_enc]
    simp only [Option.some.injEq, Prod.mk.injEq, and_true, eq_self_iff_true, if_true]
    omega
  · have h01 : (0 : Nat) ≠ 1 := by omega
    simp only [encInt, if_neg h, List.cons_append, decInt, decNat_enc]
    simp only [if_neg h01, Option.some.injEq, Prod.mk.injEq, and_true]
    omega

theorem encInt_lt (i : Int) : ∀ b ∈ encInt i, b < 128 := by
  intro b hb
  simp only [encInt, List.mem_cons] at hb
  rcases hb with hb | hb
  · subst hb; split <;> omega
  · exact encNat_lt _ b hb

theorem decChars_enc (cs : List Char) : ∀ (r : List Nat),
    decChars cs.length (encChars cs ++ r) = some (cs, r) := by
  induction cs with
  | nil => intro r; simp [encChars, decChars]
  | cons c cs ih =>
    intro r
    simp only [List.length_cons, encChars, List.map_cons, List.flatten_cons, List.append_assoc]
    simp only [decChars, decNat_enc]
    have : (cs.map (fun c => encNat c.toNat)).flatten ++ r = encChars cs ++ r := by
      simp [encChars]
    rw [this, ih r, Char.ofNat_toNat]

theorem encChars_lt (cs : List Char) : ∀ b ∈ encChars cs, b < 128 := by
  intro b hb
  simp only [encChars, List.mem_flatten, List.mem_map] at hb
  obtain ⟨l, ⟨c, _, rfl⟩, hbl⟩ := hb
  exact encNat_lt _ b hbl

theorem decString_enc (s : String) (r : List Nat) :
    decString (encString s ++ r) = some (s, r) := by
  simp only [encString, List.append_assoc, decString, decNat_enc, decChars_enc]
  rfl

theorem encString_lt (s : String) : ∀ b ∈ encString s, b < 128 := by
  intro b hb
  simp only [encString, List.mem_append] at hb
  rcases hb with hb | hb
  · exact encNat_lt _ b hb
  · exact encChars_lt _ b hb

theorem decPairs_enc (ps : List (String × Int)) : ∀ (r : List Nat),
    decPairs ps.length (encPairs ps ++ r) = some (ps, r) := by
  induction ps with
  | nil => intro r; simp [encPairs, decPairs]
  | cons q ps ih =>
    intro r
    simp only [List.length_cons, encPairs, List.map_cons, List.flatten_cons, List.append_assoc]
    simp only [decPairs, decString_enc, decInt_enc]
    have : (ps.map (fun q => encString q.1 ++ encInt q.2)).flatten ++ r = encPairs ps ++ r := by
      simp [encPairs]
    rw [this, ih r]

theorem encPairs_lt (ps : List (String × Int)) : ∀ b ∈ encPairs ps, b < 128 := by
  intro b hb
  simp only [encPairs, List.mem_flatten, List.mem_map] at hb
  obtain ⟨l, ⟨q, _, rfl⟩, hbl⟩ := hb
  rcases List.mem_append.mp hbl with hb | hb
  · exact encString_lt _ b hb
  · exact encInt_lt _ b hb

theorem decInfo_enc (info : Info) (r : List Nat) :
    decInfo (encInfo info ++ r) = some info := by
  simp only [encInfo, List.append_assoc, decInfo, decNat_enc, decString_enc, decPairs_enc]

theorem encInfo_lt (info : Info) : ∀ b ∈ encInfo info, b < 128 := by
  intro b hb
  simp only [encInfo, List.mem_append] at hb
  rcases hb with (((hb | hb) | hb) | hb) | hb
  · exact encNat_lt _ b hb
  · exact encNat_lt _ b hb
  · exact encString_lt _ b hb
  · exact encNat_lt _ b hb
  · exact encPairs_lt _ b hb

theorem decEntries_enc (es : List (Int × Nat)) : ∀ (r : List Nat),
    decEntries es.length ((es.map (fun e => encInt e.1 ++ encNat e.2)).flatten ++ r)
      = some (es, r) := by
  induction es with
  | nil => intro r; simp [decEntries]
  | cons e es ih =>
    intro r
    simp only [List.length_cons, List.map_cons, List.flatten_cons, List.append_assoc]
    simp only [decEntries, decInt_enc, decNat_enc, ih r]

theorem npLoad_save (es : List (Int × Nat)) : npLoad (npSave es) = some es := by
  have hmagic : (npSave es).take 6 = NUMPY_MAGIC := by
    simp only [npSave, List.append_assoc]
    rw [show (6 : Nat) = NUMPY_MAGIC.length from rfl, List.take_left]
  have hdrop : (npSave es).drop 6 =
      encNat es.length ++ (es.map (fun e => encInt e.1 ++ encNat e.2)).flatten := by
    simp only [npSave, List.append_assoc]
    rw [show (6 : Nat) = NUMPY_MAGIC.length from rfl, List.drop_left]
  rw [npLoad, if_pos hmagic, hdrop]
  rw [show (es.map (fun e => encInt e.1 ++ encNat e.2)).flatten
      = (es.map (fun e => encInt e.1 ++ encNat e.2)).flatten ++ [] by simp]
  rw [decNat_enc]
  have hdec := decEntries_enc es []
  simp only [hdec]

theorem take6_eq_magic_head (xs : List Nat) (h : xs.take 6 = NUMPY_MAGIC) :
    xs.head? = some 147 := by
  have : xs = NUMPY_MAGIC ++ xs.drop 6 := by
    conv_lhs => rw [← List.take_append_drop 6 xs]
    rw [h]
  rw [this]
  rfl

theorem chunk_ne_magic (pre tail : List Nat) (hpre : ∀ b ∈ pre, b < 128)
    (i : Nat) (hi : i < pre.length) :
    ((pre ++ tail).drop i).take 6 ≠ NUMPY_MAGIC := by
  intro hmag
  have hhead := take6_eq_magic_head _ hmag
  rw [List.head?_drop, List.getElem?_append_left hi] at hhead
  have hmem : (147 : Nat) ∈ pre := by
    have := List.getElem?_eq_some_iff.mp hhead
    obtain ⟨h, hget⟩ := this
    exact hget ▸ List.getElem_mem h
  have := hpre 147 hmem
  omega

theorem findMagic_finds (pre tail : List Nat) (hpre : ∀ b ∈ pre, b < 128)
    (htail : tail.take 6 = NUMPY_MAGIC) :
    ∀ (fuel i : Nat), i ≤ pre.length → pre.length - i < fuel →
      findMagic (pre ++ tail) fuel i = some pre.length := by
  intro fuel
  induction fuel with
  | zero => intro i _ h; omega
  | succ fuel ih =>
    intro i hi hfuel
    by_cases h : i = pre.length
    · subst h
      have hchunk : ((pre ++ tail).drop pre.length).take 6 = NUMPY_MAGIC := by
        rw [List.drop_left]; exact htail
      simp only [findMagic]
      rw [if_pos hchunk]
    · have hlt : i < pre.length := by omega
      have hne := chunk_ne_magic pre tail hpre i hlt
      have hnonempty : ((pre ++ tail).drop i).take 6 ≠ [] := by
        intro habs
        have h1 : (pre ++ tail).drop i ≠ [] := by
          have hilen : i < (pre ++ tail).length := by
            rw [List.length_append]; omega
          simp only [ne_eq, List.drop_eq_nil_iff]
          omega
        rcases List.exists_cons_of_ne_nil h1 with ⟨a, l, hl⟩
        rw [hl] at habs
        simp at habs
      simp only [findMagic]
      rw [if_neg hne, if_neg hnonempty]
      exact ih (i + 1) (by omega) (by omega)

/-- C8: for every index persisted by `build_index` — any metadata record
and any entry array — loading the sidecar via `get_index` returns
metadata and entries exactly equal to those serialized.  `getIndex`
consumes only the sidecar bytes, so the original source file is not
re-read or re-parsed. -/
theorem store_roundtrip_exact (info : Info) (entries : List (Int × Nat)) :
    getIndex (serializeIndex info entries) = .ok (info, entries) := by
  have hpre := encInfo_lt info
  have htail : (npSave entries).take 6 = NUMPY_MAGIC := by
    simp only [npSave, List.append_assoc]
    rw [show (6 : Nat) = NUMPY_MAGIC.length from rfl, List.take_left]
  have hfind : findMagic (encInfo info ++ npSave entries)
      ((encInfo info ++ npSave entries).length + 1) 0 = some (encInfo info).length := by
    apply findMagic_finds _ _ hpre htail
    · omega
    · rw [List.length_append]; omega
  have hdec : decInfo (encInfo info) = some info := by
    have := decInfo_enc info []
    simpa using this
  simp only [getIndex, serializeIndex, hfind, List.take_left, List.drop_left, hdec,
    npLoad_save]

/-! ### Resolver bracket selection (claims C1, C2) -/

/-- C1 (amended): for every loaded index and queried code with lower-bound
insertion point strictly between 0 and the array length and no exact
match, `goto` performs the bounded scan with left bound the byte offset
of the entry at `insertion_point - 1`, and right bound the byte offset of
the entry at `insertion_point + 1` when that entry exists, else
end-of-file (unbounded) — not, as the claim states, the offset of the
entry at `insertion_point`. -/
theorem goto_interior_uses_next_entry_offset (entries : List (Int × Nat)) (code : Int)
    (b : Nat)
    (hb : b = bisectLeft (entries.map Prod.fst) code (entries.length + 2) 0 entries.length)
    (h0 : 0 < b) (hn : b < entries.length)
    (hne : (entries.map Prod.fst).getD b 0 ≠ code) :
    gotoBracket entries code =
      .scan ((entries[b - 1]?.getD (0, 0)).2) (entries[b + 1]?.map Prod.snd) := by
  obtain ⟨row, hrow⟩ : ∃ r, entries[b - 1]? = some r :=
    ⟨entries.get ⟨b - 1, by omega⟩, List.getElem?_eq_getElem (by omega)⟩
  simp only [gotoBracket]
  rw [← hb]
  rw [if_neg (Nat.ne_of_lt hn)]
  rw [if_neg hne]
  have hpy : pyGetRow entries ((b : Int) - 1) = entries[b - 1]? := by
    unfold pyGetRow
    rw [if_pos (by omega : (0 : Int) ≤ (b : Int) - 1)]
    congr 1
    omega
  rw [hpy, hrow]
  simp [hrow]

/-- C1 witness: on the three-entry fixture and the code `1000000015`
(insertion point 1), the bracket is a scan from the offset of entry 0 to
the offset of entry 2. -/
theorem goto_interior_uses_next_entry_offset_witness :
    gotoBracket c1Entries 1000000015 =
      .scan ((c1Entries[0]?.getD (0, 0)).2) (c1Entries[2]?.map Prod.snd) :=
  goto_interior_uses_next_entry_offset c1Entries 1000000015 1 (by rfl) (by decide)
    (by decide) (by decide)

/-- C1 counterexample: on the three-entry fixture with offsets 0, 5, 10
and insertion point 1, the scan's right bound is 10 — the offset of the
entry at `insertion_point + 1` — and in particular not 5, the offset of
the entry at `insertion_point` claimed by the specification. -/
theorem goto_interior_right_bound_not_insertion_point :
    gotoBracket c1Entries 1000000015 = .scan 0 (some 10) ∧
      gotoBracket c1Entries 1000000015 ≠ .scan 0 (some 5) := by
  refine ⟨rfl, ?_⟩
  decide

/-- C2: on a two-entry index with offsets 0 and 5 and a queried code
smaller than every recorded code (insertion point 0, no exact match),
`goto` does not return not-found without touching the file: it falls
through to the bounded scan — `index[boundary - 1]` wrapping around to
the last entry — seeking to offset 5 with right bound 5, and the scan
then reads the line there before returning `False`. -/
theorem goto_before_first_entry_scans :
    gotoBracket c2Entries 1000000005 = .scan 5 (some 5) ∧
      goto c2Content c2Info c2Entries "1" 5 20 = .ok (false, 10) :=
  ⟨rfl, rfl⟩

/-! ### Builder ordering checks (claim C3) -/

/-- C3 (amended): during a build, for every decoded locus code after the
first entry: in dense mode a code strictly greater than the last recorded
code is appended, an equal code is skipped, and a strictly smaller code
raises the fatal unsorted-input error; in sparse mode only a strictly
smaller code raises the fatal unsorted-input error, and otherwise —
including a code equal to the previous recorded one — the entry is
appended. -/
theorem build_update_order_checks (index : List (Int × Nat)) (last : Int × Nat)
    (code : Int) (tell : Nat) (h : index.getLast? = some last) :
    (code < last.1 →
      denseUpdate index code tell = .error .notSorted ∧
        sparseUpdate index code tell = .error .notSorted) ∧
    (code = last.1 →
      denseUpdate index code tell = .ok index ∧
        sparseUpdate index code tell = .ok (index ++ [(code, tell)])) ∧
    (last.1 < code →
      denseUpdate index code tell = .ok (index ++ [(code, tell)]) ∧
        sparseUpdate index code tell = .ok (index ++ [(code, tell)])) := by
  have hd : index.getLast?.getD (0, 0) = last := by rw [h]; rfl
  refine ⟨fun hlt => ?_, fun heq => ?_, fun hgt => ?_⟩
  · constructor
    · simp only [denseUpdate, hd]
      rw [if_pos (by omega : last.1 > code)]
    · simp only [sparseUpdate, hd]
      rw [if_pos (by omega : last.1 > code)]
  · constructor
    · simp only [denseUpdate, hd]
      rw [if_neg (by omega : ¬ last.1 > code), if_pos (by omega : last.1 = code)]
    · simp only [sparseUpdate, hd]
      rw [if_neg (by omega : ¬ last.1 > code)]
  · constructor
    · simp only [denseUpdate, hd]
      rw [if_neg (by omega : ¬ last.1 > code), if_neg (by omega : ¬ last.1 = code)]
    · simp only [sparseUpdate, hd]
      rw [if_neg (by omega : ¬ last.1 > code)]

/-- C3 witness: with last recorded entry `(5, 0)` and decoded code 7 at
offset 9, the three cases instantiate concretely; the strictly-greater
case appends in both modes. -/
theorem build_update_order_checks_witness :
    ((7 : Int) < 5 →
      denseUpdate [((5 : Int), (0 : Nat))] 7 9 = .error .notSorted ∧
        sparseUpdate [((5 : Int), (0 : Nat))] 7 9 = .error .notSorted) ∧
    ((7 : Int) = 5 →
      denseUpdate [((5 : Int), (0 : Nat))] 7 9 = .ok [(5, 0)] ∧
        sparseUpdate [((5 : Int), (0 : Nat))] 7 9 = .ok [(5, 0), (7, 9)]) ∧
    ((5 : Int) < 7 →
      denseUpdate [((5 : Int), (0 : Nat))] 7 9 = .ok [(5, 0), (7, 9)] ∧
        sparseUpdate [((5 : Int), (0 : Nat))] 7 9 = .ok [(5, 0), (7, 9)]) :=
  build_update_order_checks [((5 : Int), (0 : Nat))] (5, 0) 7 9 rfl

/-- C3 counterexample: on the sparse fixture (`index_rate = 1/2`), the
build completes successfully after the second probe decodes the code
`1000000030`, which is equal — not strictly greater — to the previously
recorded code: `sparseUpdate` appends it instead of raising the
unsorted-input error the claim requires. -/
theorem sparse_appends_equal_code :
    buildScan spFile spParams =
      .ok (⟨0, 1, "\t", [("1", 1)]⟩,
        [(1000000010, 0), (1000000030, 25), (1000000030, 45)]) ∧
    sparseUpdate [(1000000010, 0), (1000000030, 25)] 1000000030 45 =
      .ok [(1000000010, 0), (1000000030, 25), (1000000030, 45)] :=
  ⟨rfl, rfl⟩

/-- C4 counterexample: the same successful sparse build produces an entry
array whose codes `1000000010, 1000000030, 1000000030` are not strictly
ascending: one locus is represented by two entries, the second holding
offset 45 although the locus first occurs at offset 25. -/
theorem sparse_build_violates_strict_ascent :
    buildScan spFile spParams =
      .ok (⟨0, 1, "\t", [("1", 1)]⟩,
        [(1000000010, 0), (1000000030, 25), (1000000030, 45)]) ∧
    ¬ List.Chain' (· < ·)
        (List.map Prod.fst
          [((1000000010 : Int), (0 : Nat)), (1000000030, 25), (1000000030, 45)]) := by
  refine ⟨rfl, ?_⟩
  intro h
  simp only [List.map_cons, List.map_nil] at h
  exact absurd (List.chain'_cons.mp (List.chain'_cons.mp h).2).1 (by omega)

/-! ### Degenerate inputs (claim C5) -/

/-- C5: on a source file whose data region is empty (the data start is at
end of file, e.g. an empty file or one exhausted by headers),
`build_index` faults: the unconditional first-line read raises
`EndOfFile` out of the build — the claim that degenerate inputs must not
fault does not hold for the code.  (The estimated line count there is a
float `nan`, not the zero the claim states: the measured mean line
length is 0 and the source divides `size / line_length`.) -/
theorem build_empty_data_region_faults (content : List Char) (p : BuildParams)
    (hcc : p.chrom_col ≠ p.pos_col)
    (hstart : dataStart content p = .ok content.length) :
    buildScan content p = .error .endOfFile := by
  have hreadline : readline content content.length = ("", content.length) := by
    simp [readline, takeLine]
  simp only [buildScan, hstart, if_neg hcc, hreadline]
  rfl

/-- C5 witness: the empty file faults with `EndOfFile`. -/
theorem build_empty_data_region_faults_witness :
    buildScan ([] : List Char) denseParams = .error .endOfFile :=
  build_empty_data_region_faults [] denseParams (by decide) (by rfl)

/-! ### Unknown chromosome (claim C6) -/

/-- C6: for every file, index and query whose normalized chromosome label
is absent from the persisted chromosome-code map, `goto` raises
`ChromosomeNotIndexed`; the error is produced before the binary search
and the bounded scan (the result does not depend on the file or on the
entries, which are universally quantified here), and the persisted map is
read-only at query time (`goto` takes it immutably and returns only the
error). -/
theorem goto_unknown_chromosome_raises (content : List Char) (info : Info)
    (entries : List (Int × Nat)) (chrom : String) (pos : Int) (fuel : Nat)
    (h : lookupChrom info.chrom_codes (normChrom chrom) = none) :
    goto content info entries chrom pos fuel = .error .chromosomeNotIndexed := by
  simp only [goto, h]

/-- C6 witness: chromosome `"5"` is not in the fixture map. -/
theorem goto_unknown_chromosome_raises_witness :
    goto c2Content c2Info c2Entries "5" 2 20 = .error .chromosomeNotIndexed :=
  goto_unknown_chromosome_raises c2Content c2Info c2Entries "5" 2 20 (by rfl)

/-! ### Determinism (claim C9) -/

/-- C9: building the same unchanged content with the same parameters (in
particular the same `index_rate`) twice yields equal results — the same
entry array, code for code and offset for offset.  The build is a pure
function of the source bytes and the parameters. -/
theorem build_deterministic (content : List Char) (p : BuildParams)
    (r₁ r₂ : Except BuildErr (Info × List (Int × Nat)))
    (h₁ : buildScan content p = r₁) (h₂ : buildScan content p = r₂) : r₁ = r₂ := by
  rw [← h₁, ← h₂]

/-- C9 witness: two runs of the dense fixture build agree on the concrete
entry array. -/
theorem build_deterministic_witness :
    buildScan denseFile denseParams =
      .ok (⟨0, 1, "\t", [("1", 1), ("2", 2)]⟩,
        [(1000000005, 0), (1000000007, 8), (2000000003, 12)]) :=
  build_deterministic denseFile denseParams _ _ rfl (by rfl)

/-! ### No write on failure (claim C10) -/

/-- C10: whenever the scanning phase of `build_index` raises — the
unsorted-input error, a parse failure, or any other build error — the
sidecar file is not written at all: the list of performed writes is
empty, because the sidecar is opened for writing only after the entire
scan has completed successfully, so a pre-existing sidecar at the derived
path is left byte-for-byte unchanged. -/
theorem build_error_writes_nothing (fn : String) (content : List Char) (p : BuildParams)
    (e : BuildErr) (h : (buildIndexRun fn content p).1 = .error e) :
    (buildIndexRun fn content p).2 = [] := by
  cases hb : buildScan content p with
  | error e' => simp [buildIndexRun, hb]
  | ok v =>
    exfalso
    simp [buildIndexRun, hb] at h

/-- C10 witness: a failing build (empty data region) performs no write. -/
theorem build_error_writes_nothing_witness :
    (buildIndexRun "variants.txt" ([] : List Char) denseParams).2 = [] :=
  build_error_writes_nothing "variants.txt" [] denseParams .endOfFile (by rfl)

/-! ### Readline and line-structure lemmas -/

theorem takeLine_eq_nil_iff (l : List Char) : takeLine l = [] ↔ l = [] := by
  cases l with
  | nil => simp [takeLine]
  | cons c cs =>
    simp only [takeLine]
    constructor
    · intro h
      split at h <;> simp_all
    · intro h
      simp at h

theorem stringMk_eq_empty_iff (l : List Char) : String.mk l = "" ↔ l = [] := by
  constructor
  · intro h
    have := congrArg String.data h
    simpa using this
  · intro h
    subst h
    rfl

theorem readline_snd_ge (content : List Char) (pos : Nat) :
    pos ≤ (readline content pos).2 := by
  simp [readline]

theorem readline_empty_iff (content : List Char) (pos : Nat) :
    (readline content pos).1 = "" ↔ content.length ≤ pos := by
  simp only [readline, stringMk_eq_empty_iff, takeLine_eq_nil_iff, List.drop_eq_nil_iff]

theorem readline_snd_gt (content : List Char) (pos : Nat)
    (h : (readline content pos).1 ≠ "") : pos < (readline content pos).2 := by
  have h' : takeLine (content.drop pos) ≠ [] := by
    intro hnil
    apply h
    simp [readline, hnil]
  have hlen : 0 < (takeLine (content.drop pos)).length := List.length_pos.mpr h'
  simp only [readline]
  omega

theorem readline_eof (content : List Char) (pos : Nat) (h : content.length ≤ pos) :
    readline content pos = ("", pos) := by
  have h1 : content.drop pos = [] := List.drop_eq_nil_iff.mpr h
  simp [readline, h1, takeLine]

/-! ### Line-start lemmas -/

theorem lineStartsFrom_mem_ge (content : List Char) :
    ∀ (fuel pos o : Nat), o ∈ lineStartsFrom content fuel pos → pos ≤ o := by
  intro fuel
  induction fuel with
  | zero => intro pos o h; simp [lineStartsFrom] at h
  | succ fuel ih =>
    intro pos o h
    simp only [lineStartsFrom] at h
    split at h
    · simp at h; omega
    · rcases List.mem_cons.mp h with h | h
      · omega
      · have h1 := ih _ _ h
        have h2 := readline_snd_ge content pos
        omega

theorem lineStartsFrom_self_mem (content : List Char) (fuel pos : Nat) (h : 0 < fuel) :
    pos ∈ lineStartsFrom content fuel pos := by
  cases fuel with
  | zero => omega
  | succ fuel =>
    simp only [lineStartsFrom]
    split
    · simp
    · exact List.mem_cons_self _ _

theorem lineStartsFrom_fuel_eq (content : List Char) :
    ∀ (f₁ f₂ pos : Nat), content.length + 1 ≤ f₁ + pos → content.length + 1 ≤ f₂ + pos →
      1 ≤ f₁ → 1 ≤ f₂ →
      lineStartsFrom content f₁ pos = lineStartsFrom content f₂ pos := by
  intro f₁
  induction f₁ with
  | zero => intro f₂ pos _ _ h1 _; omega
  | succ f₁ ih =>
    intro f₂ pos hf₁ hf₂ _ hf₂1
    cases f₂ with
    | zero => omega
    | succ f₂ =>
      simp only [lineStartsFrom]
      by_cases hline : (readline content pos).1 = ""
      · rw [if_pos hline, if_pos hline]
      · rw [if_neg hline, if_neg hline]
        have hpos : pos < content.length := by
          by_contra hc
          exact hline ((readline_empty_iff content pos).mpr (by omega))
        have hadv : pos < (readline content pos).2 := readline_snd_gt content pos hline
        congr 1
        exact ih f₂ _ (by omega) (by omega) (by omega) (by omega)

theorem lineStartsFrom_cons (content : List Char) (pos : Nat)
    (h : (readline content pos).1 ≠ "") :
    lineStartsFrom content (content.length + 1) pos =
      pos :: lineStartsFrom content (content.length + 1) (readline content pos).2 := by
  have hpos : pos < content.length := by
    by_contra hc
    exact h ((readline_empty_iff content pos).mpr (by omega))
  have hadv : pos < (readline content pos).2 := readline_snd_gt content pos h
  conv_lhs => rw [show content.length + 1 = content.length + 1 from rfl]
  simp only [lineStartsFrom]
  rw [if_neg h]
  congr 1
  exact lineStartsFrom_fuel_eq content content.length (content.length + 1) _
    (by omega) (by omega) (by omega) (by omega)

theorem lineStartsFrom_closed (content : List Char) :
    ∀ (fuel pos : Nat), content.length + 1 ≤ fuel + pos →
      ∀ cur ∈ lineStartsFrom content fuel pos, (readline content cur).1 ≠ "" →
        (readline content cur).2 ∈ lineStartsFrom content fuel pos := by
  intro fuel
  induction fuel with
  | zero => intro pos _ cur hc; simp [lineStartsFrom] at hc
  | succ fuel ih =>
    intro pos hfuel cur hc hne
    simp only [lineStartsFrom] at hc ⊢
    by_cases hline : (readline content pos).1 = ""
    · rw [if_pos hline] at hc
      simp at hc
      subst hc
      exact absurd hline hne
    · rw [if_neg hline] at hc ⊢
      have hpos : pos < content.length := by
        by_contra hcon
        exact hline ((readline_empty_iff content pos).mpr (by omega))
      have hadv : pos < (readline content pos).2 := readline_snd_gt content pos hline
      rcases List.mem_cons.mp hc with hcur | hcur
      · subst hcur
        refine List.mem_cons.mpr (Or.inr ?_)
        exact lineStartsFrom_self_mem content fuel _ (by omega)
      · refine List.mem_cons.mpr (Or.inr ?_)
        exact ih _ (by omega) cur hcur hne

theorem lineStarts_next (content : List Char) (cur : Nat)
    (hmem : cur ∈ lineStarts content) (h : (readline content cur).1 ≠ "") :
    (readline content cur).2 ∈ lineStarts content :=
  lineStartsFrom_closed content (content.length + 1) 0 (by omega) cur hmem h

/-! ### Codec lemmas -/

theorem lookupChrom_append_some (m₁ m₂ : List (String × Int)) (c : String) (k : Int)
    (h : lookupChrom m₁ c = some k) : lookupChrom (m₁ ++ m₂) c = some k := by
  induction m₁ with
  | nil => simp [lookupChrom] at h
  | cons q t ih =>
    simp only [lookupChrom, List.cons_append] at h ⊢
    split at h
    · next heq => rw [if_pos heq]; exact h
    · next heq => rw [if_neg heq]; exact ih h

theorem lookupChrom_append_none (m₁ m₂ : List (String × Int)) (c : String)
    (h : lookupChrom m₁ c = none) : lookupChrom (m₁ ++ m₂) c = lookupChrom m₂ c := by
  induction m₁ with
  | nil => simp [lookupChrom]
  | cons q t ih =>
    simp only [lookupChrom, List.cons_append] at h ⊢
    split at h
    · simp at h
    · next heq => rw [if_neg heq]; exact ih h

theorem encode_locus_submap (st : EncState) (ch : String) (p : Int) :
    ∀ c k, lookupChrom st.chromosomes c = some k →
      lookupChrom (encode_locus st ch p).2.chromosomes c = some k := by
  intro c k h
  simp only [encode_locus]
  cases hch : lookupChrom st.chromosomes ch with
  | some k' => simpa using h
  | none => exact lookupChrom_append_some _ _ c k h

theorem encode_locus_spec (st : EncState) (ch : String) (p : Int) :
    ∃ k, lookupChrom (encode_locus st ch p).2.chromosomes ch = some k ∧
      (encode_locus st ch p).1 = k * MAGIC_NUMBER + p := by
  simp only [encode_locus]
  cases hch : lookupChrom st.chromosomes ch with
  | some k => exact ⟨k, by simpa using hch, rfl⟩
  | none =>
    refine ⟨st.current_key + 1, ?_, rfl⟩
    rw [lookupChrom_append_none _ _ _ hch]
    simp [lookupChrom]

theorem lookupChrom_mem (m : List (String × Int)) (c : String) (k : Int)
    (h : lookupChrom m c = some k) : (c, k) ∈ m := by
  induction m with
  | nil => simp [lookupChrom] at h
  | cons q t ih =>
    simp only [lookupChrom] at h
    split at h
    · next heq =>
      simp only [Option.some.injEq] at h
      subst heq; subst h
      exact List.mem_cons_self _ _
    · exact List.mem_cons.mpr (Or.inr (ih h))

/-! ### Update-case lemmas -/

theorem denseUpdate_of_lt (index : List (Int × Nat)) (last : Int × Nat) (code : Int)
    (tell : Nat) (h : index.getLast? = some last) (hlt : code < last.1) :
    denseUpdate index code tell = .error .notSorted := by
  simp only [denseUpdate, h, Option.getD_some]
  rw [if_pos (by omega : last.1 > code)]

theorem denseUpdate_of_eq (index : List (Int × Nat)) (last : Int × Nat) (code : Int)
    (tell : Nat) (h : index.getLast? = some last) (heq : code = last.1) :
    denseUpdate index code tell = .ok index := by
  simp only [denseUpdate, h, Option.getD_some]
  rw [if_neg (by omega : ¬ last.1 > code), if_pos (by omega : last.1 = code)]

theorem denseUpdate_of_gt (index : List (Int × Nat)) (last : Int × Nat) (code : Int)
    (tell : Nat) (h : index.getLast? = some last) (hgt : last.1 < code) :
    denseUpdate index code tell = .ok (index ++ [(code, tell)]) := by
  simp only [denseUpdate, h, Option.getD_some]
  rw [if_neg (by omega : ¬ last.1 > code), if_neg (by omega : ¬ last.1 = code)]

theorem sparseUpdate_of_lt (index : List (Int × Nat)) (last : Int × Nat) (code : Int)
    (tell : Nat) (h : index.getLast? = some last) (hlt : code < last.1) :
    sparseUpdate index code tell = .error .notSorted := by
  simp only [sparseUpdate, h, Option.getD_some]
  rw [if_pos (by omega : last.1 > code)]

theorem sparseUpdate_of_ge (index : List (Int × Nat)) (last : Int × Nat) (code : Int)
    (tell : Nat) (h : index.getLast? = some last) (hge : last.1 ≤ code) :
    sparseUpdate index code tell = .ok (index ++ [(code, tell)]) := by
  simp only [sparseUpdate, h, Option.getD_some]
  rw [if_neg (by omega : ¬ last.1 > code)]

/-- Every element below a strictly increasing chain's head exceeds the
base. -/
theorem chain_lt_of_mem (a : Int) (l : List Int) (h : List.Chain (· < ·) a l) :
    ∀ x ∈ l, a < x := by
  induction l generalizing a with
  | nil => intro x hx; simp at hx
  | cons b t ih =>
    intro x hx
    cases h with
    | cons hab ht =>
      rcases List.mem_cons.mp hx with hx | hx
      · omega
      · have := ih b ht x hx
        omega

/-! ### Resolver lemmas and claim C7 -/

theorem mem_of_getElemQ {α : Type} (l : List α) (n : Nat) (a : α) (h : l[n]? = some a) :
    a ∈ l := by
  obtain ⟨hlt, hget⟩ := List.getElem?_eq_some_iff.mp h
  exact hget ▸ List.getElem_mem hlt

theorem pyGetRow_mem (entries : List (Int × Nat)) (i : Int) (row : Int × Nat)
    (h : pyGetRow entries i = some row) : row ∈ entries := by
  unfold pyGetRow at h
  split at h
  · exact mem_of_getElemQ _ _ _ h
  · split at h
    · exact mem_of_getElemQ _ _ _ h
    · simp at h

theorem gotoBracket_exact_mem (entries : List (Int × Nat)) (code : Int) (off : Nat)
    (h : gotoBracket entries code = .exact off) : (code, off) ∈ entries := by
  simp only [gotoBracket] at h
  split at h
  · split at h <;> simp_all
  · split at h
    · next hcode =>
      split at h
      · next row hrow =>
        simp only [Bracket.exact.injEq] at h
        have hmem : row ∈ entries := mem_of_getElemQ _ _ _ hrow
        have hmap : (entries.map Prod.fst)[bisectLeft (entries.map Prod.fst) code
            (entries.length + 2) 0 entries.length]? = some row.1 := by
          rw [List.getElem?_map, hrow]
          rfl
        have hfst : row.1 = code := by
          rw [List.getD_eq_getElem?_getD, hmap] at hcode
          simpa using hcode
        have heq : (code, off) = row := by
          rw [← hfst, ← h]
        rw [heq]
        exact hmem
      · simp at h
    · split at h <;> simp_all

theorem gotoBracket_scan_left_mem (entries : List (Int × Nat)) (code : Int) (l : Nat)
    (r : Option Nat) (h : gotoBracket entries code = .scan l r) :
    ∃ c, (c, l) ∈ entries := by
  simp only [gotoBracket] at h
  split at h
  · split at h
    · next row hrow =>
      simp only [Bracket.scan.injEq] at h
      exact ⟨row.1, by rw [← h.1]; exact pyGetRow_mem _ _ _ hrow⟩
    · simp at h
  · split at h
    · split at h <;> simp_all
    · split at h
      · simp at h
      · next row hrow =>
        simp only [Bracket.scan.injEq] at h
        exact ⟨row.1, by rw [← h.1]; exact pyGetRow_mem _ _ _ hrow⟩

theorem get_locus_ok_ne_empty (line : String) (cc pc : Nat) (delim : String)
    (v : String × Int) (h : get_locus line cc pc delim = .ok v) : line ≠ "" := by
  intro hline
  rw [hline] at h
  simp [get_locus] at h

theorem gotoFine_true_spec (content : List Char) (info : Info) (ch : String) (p : Int)
    (r : Option Nat) :
    ∀ (fuel cur fp : Nat), gotoFine content info ch p r fuel cur = .ok (true, fp) →
      (cur ∈ lineStarts content → fp ∈ lineStarts content) ∧
        locusAt content info fp = .ok (ch, p) := by
  intro fuel
  induction fuel with
  | zero => intro cur fp h; simp [gotoFine] at h
  | succ fuel ih =>
    intro cur fp h
    cases hg : get_locus (readline content cur).1 info.chrom_col info.pos_col
        info.delimiter with
    | error e =>
      cases e <;> simp [gotoFine, hg] at h
    | ok v =>
      obtain ⟨c', p'⟩ := v
      by_cases hcond : c' = ch ∧ p' = p
      · simp only [gotoFine, hg, if_pos hcond] at h
        simp only [Except.ok.injEq, Prod.mk.injEq, true_and] at h
        subst h
        refine ⟨fun hc => hc, ?_⟩
        rw [locusAt, hg, hcond.1, hcond.2]
      · simp only [gotoFine, hg, if_neg hcond] at h
        split at h
        · simp at h
        · have hnext := ih _ _ h
          refine ⟨fun hc => hnext.1 ?_, hnext.2⟩
          exact lineStarts_next content cur hc
            (get_locus_ok_ne_empty _ _ _ _ _ hg)

/-- C7: whenever `goto` returns `True` — by exact match in the entry array
or by a match during the bounded scan — the final cursor position is the
first byte of a line, and that line decodes (with the stored metadata) to
exactly the queried locus (chromosome normalized, position as queried).
The hypotheses ask that the loaded index is well-formed for the file
(entry offsets are line starts whose loci encode to the entry codes, with
in-range positions), that the persisted chromosome-code map is injective,
and that the queried position is in `[0, MAGIC_NUMBER)`. -/
theorem goto_true_cursor_at_match (content : List Char) (info : Info)
    (entries : List (Int × Nat)) (chrom : String) (pos : Int) (fuel fp : Nat)
    (hwf : WfIndex content info entries) (hinj : MapInj info)
    (hpos : 0 ≤ pos) (hposM : pos < MAGIC_NUMBER)
    (h : goto content info entries chrom pos fuel = .ok (true, fp)) :
    fp ∈ lineStarts content ∧ locusAt content info fp = .ok (normChrom chrom, pos) := by
  cases hlk : lookupChrom info.chrom_codes (normChrom chrom) with
  | none => simp [goto, hlk] at h
  | some k =>
    cases hbr : gotoBracket entries (k * MAGIC_NUMBER + pos) with
    | idxErr => simp [goto, hlk, hbr] at h
    | exact off =>
      simp only [goto, hlk, hbr] at h
      simp only [Except.ok.injEq, Prod.mk.injEq, true_and] at h
      rw [h] at hbr
      have hmem := gotoBracket_exact_mem entries _ fp hbr
      have hwfe := hwf _ hmem
      simp only [wfEntryB, Bool.and_eq_true, decide_eq_true_eq] at hwfe
      obtain ⟨hstart, hrest⟩ := hwfe
      cases hloc : locusAt content info fp with
      | error e => rw [hloc] at hrest; simp at hrest
      | ok v =>
        rw [hloc] at hrest
        obtain ⟨c, p⟩ := v
        simp only [Bool.and_eq_true, decide_eq_true_eq] at hrest
        obtain ⟨⟨hp0, hpM⟩, hmap⟩ := hrest
        cases hlk2 : lookupChrom info.chrom_codes c with
        | none => rw [hlk2] at hmap; simp at hmap
        | some k' =>
          rw [hlk2] at hmap
          simp only [decide_eq_true_eq] at hmap
          have hM : MAGIC_NUMBER = 1000000000 := rfl
          rw [hM] at hmap hposM hpM
          have hkk : k = k' := by omega
          have hpp : pos = p := by omega
          have hc : c = normChrom chrom := by
            have hm1 := lookupChrom_mem _ _ _ hlk
            have hm2 := lookupChrom_mem _ _ _ hlk2
            exact hinj _ hm2 _ hm1 (by omega)
          refine ⟨hstart, ?_⟩
          rw [hc, ← hpp]
    | scan l r =>
      simp only [goto, hlk, hbr] at h
      have hspec := gotoFine_true_spec content info (normChrom chrom) pos r fuel l fp h
      obtain ⟨c', hlmem⟩ := gotoBracket_scan_left_mem entries _ l r hbr
      have hwfl := hwf _ hlmem
      simp only [wfEntryB, Bool.and_eq_true, decide_eq_true_eq] at hwfl
      exact ⟨hspec.1 hwfl.1, hspec.2⟩

/-- C7 witness: on the two-line fixture, `goto` with query `("chr1", 20)`
returns `True` with the cursor at offset 5, the start of the line
`"1\t20"`, which decodes to the queried locus. -/
theorem goto_true_cursor_at_match_witness :
    (5 : Nat) ∈ lineStarts c2Content ∧
      locusAt c2Content c2Info 5 = .ok (normChrom "chr1", 20) :=
  goto_true_cursor_at_match c2Content c2Info c2Entries "chr1" 20 20 5
    (by decide) (by decide) (by decide) (by decide) (by rfl)

/-! ### Builder loop invariants and claim C4 -/

theorem denseLoop_inv (content : List Char) (cc pc : Nat) (delim : String) :
    ∀ (fuel pos : Nat) (idx : List (Int × Nat)) (enc : EncState)
      (out : List (Int × Nat)) (encF : EncState) (lastE : Int × Nat),
      denseLoop content cc pc delim fuel pos idx enc = .ok (out, encF) →
      idx.getLast? = some lastE →
      (∀ c k, lookupChrom enc.chromosomes c = some k →
        lookupChrom encF.chromosomes c = some k) ∧
      ∃ suf, out = idx ++ suf ∧
        List.Chain (· < ·) lastE.1 (suf.map Prod.fst) ∧
        ∀ e ∈ suf,
          e.2 ∈ lineStartsFrom content (content.length + 1) pos ∧
          ∃ ch ps k,
            get_locus (readline content e.2).1 cc pc delim = .ok (ch, ps) ∧
            lookupChrom encF.chromosomes ch = some k ∧
            e.1 = k * MAGIC_NUMBER + ps ∧
            ∀ o ∈ lineStartsFrom content (content.length + 1) pos, o < e.2 →
              get_locus (readline content o).1 cc pc delim ≠ .ok (ch, ps) := by
  intro fuel
  induction fuel with
  | zero =>
    intro pos idx enc out encF lastE h hlast
    simp [denseLoop] at h
  | succ fuel ih =>
    intro pos idx enc out encF lastE h hlast
    by_cases hline : (readline content pos).1 = ""
    · simp only [denseLoop] at h
      rw [if_pos hline] at h
      simp only [Except.ok.injEq, Prod.mk.injEq] at h
      obtain ⟨hout, henc⟩ := h
      subst hout
      subst henc
      refine ⟨fun c k hk => hk, [], by simp, List.Chain.nil, by simp⟩
    · simp only [denseLoop] at h
      rw [if_neg hline] at h
      cases hg : get_locus (readline content pos).1 cc pc delim with
      | error e =>
        simp only [hg] at h
        exact absurd h (by simp)
      | ok v =>
        obtain ⟨ch, pl⟩ := v
        simp only [hg] at h
        rcases hel : encode_locus enc ch pl with ⟨code, enc'⟩
        simp only [hel] at h
        have hsub1 : ∀ c k, lookupChrom enc.chromosomes c = some k →
            lookupChrom enc'.chromosomes c = some k := by
          intro c k hk
          have := encode_locus_submap enc ch pl c k hk
          rw [hel] at this
          exact this
        have hspec : ∃ k, lookupChrom enc'.chromosomes ch = some k ∧
            code = k * MAGIC_NUMBER + pl := by
          obtain ⟨k, h1, h2⟩ := encode_locus_spec enc ch pl
          rw [hel] at h1 h2
          exact ⟨k, h1, h2⟩
        have hcons := lineStartsFrom_cons content pos hline
        rcases lt_trichotomy code lastE.1 with hlt | heq | hgt
        · rw [denseUpdate_of_lt idx lastE code pos hlast hlt] at h
          simp at h
        · simp only [denseUpdate_of_eq idx lastE code pos hlast heq] at h
          obtain ⟨hsub, suf, hout, hchain, hent⟩ :=
            ih (readline content pos).2 idx enc' out encF lastE h hlast
          refine ⟨fun c k hk => hsub c k (hsub1 c k hk), suf, hout, hchain, ?_⟩
          intro e he
          obtain ⟨hmem, che, pse, ke, hge, hke, hcodee, hearliest⟩ := hent e he
          refine ⟨by rw [hcons]; exact List.mem_cons.mpr (Or.inr hmem),
            che, pse, ke, hge, hke, hcodee, ?_⟩
          intro o ho holt
          rw [hcons] at ho
          rcases List.mem_cons.mp ho with rfl | hotail
          · intro habs
            rw [hg] at habs
            simp only [Except.ok.injEq, Prod.mk.injEq] at habs
            obtain ⟨hch, hpl⟩ := habs
            obtain ⟨k', hk1, hk2⟩ := hspec
            rw [hch] at hk1
            rw [hsub _ _ hk1] at hke
            simp only [Option.some.injEq] at hke
            have hee : e.1 = code := by rw [hcodee, ← hke, hk2, hpl]
            have hgt2 := chain_lt_of_mem lastE.1 (suf.map Prod.fst) hchain e.1
              (List.mem_map.mpr ⟨e, he, rfl⟩)
            omega
          · exact hearliest o hotail holt
        · simp only [denseUpdate_of_gt idx lastE code pos hlast hgt] at h
          have hlast' : (idx ++ [(code, pos)]).getLast? = some (code, pos) := by simp
          obtain ⟨hsub, suf', hout, hchain', hent'⟩ :=
            ih (readline content pos).2 (idx ++ [(code, pos)]) enc' out encF (code, pos)
              h hlast'
          obtain ⟨k', hk1, hk2⟩ := hspec
          have hkF : lookupChrom encF.chromosomes ch = some k' := hsub _ _ hk1
          refine ⟨fun c k hk => hsub c k (hsub1 c k hk), (code, pos) :: suf', ?_, ?_, ?_⟩
          · rw [hout, List.append_assoc]
            rfl
          · exact List.Chain.cons hgt hchain'
          · intro e he
            rcases List.mem_cons.mp he with rfl | hesuf
            · refine ⟨?_, ch, pl, k', hg, hkF, hk2, ?_⟩
              · exact lineStartsFrom_self_mem content _ pos (by omega)
              · intro o ho holt
                have := lineStartsFrom_mem_ge content _ pos o ho
                omega
            · obtain ⟨hmem, che, pse, ke, hge, hke, hcodee, hearliest⟩ := hent' e hesuf
              refine ⟨by rw [hcons]; exact List.mem_cons.mpr (Or.inr hmem),
                che, pse, ke, hge, hke, hcodee, ?_⟩
              intro o ho holt
              rw [hcons] at ho
              rcases List.mem_cons.mp ho with rfl | hotail
              · intro habs
                rw [hg] at habs
                simp only [Except.ok.injEq, Prod.mk.injEq] at habs
                obtain ⟨hch, hpl⟩ := habs
                rw [hch] at hkF
                rw [hkF] at hke
                simp only [Option.some.injEq] at hke
                have hee : e.1 = code := by rw [hcodee, ← hke, hk2, hpl]
                have hgt2 := chain_lt_of_mem code (suf'.map Prod.fst) hchain' e.1
                  (List.mem_map.mpr ⟨e, hesuf, rfl⟩)
                omega
              · exact hearliest o hotail holt

theorem sparseLoop_inv (content : List Char) (cc pc : Nat) (delim : String)
    (seek_jump : Frac) (start size : Nat) :
    ∀ (fuel cur : Nat) (idx : List (Int × Nat)) (enc : EncState)
      (out : List (Int × Nat)) (encF : EncState) (lastE : Int × Nat),
      sparseLoop content cc pc delim seek_jump start size fuel cur idx enc =
        .ok (out, encF) →
      idx.getLast? = some lastE →
      (∀ c k, lookupChrom enc.chromosomes c = some k →
        lookupChrom encF.chromosomes c = some k) ∧
      ∃ suf, out = idx ++ suf ∧ List.Chain (· ≤ ·) lastE.1 (suf.map Prod.fst) := by
  intro fuel
  induction fuel with
  | zero =>
    intro cur idx enc out encF lastE h hlast
    simp [sparseLoop] at h
  | succ fuel ih =>
    intro cur idx enc out encF lastE h hlast
    simp only [sparseLoop] at h
    split at h
    · cases hg : get_locus ((readline content
          (readline content (pyTrunc (Frac.add (Frac.ofNat cur) seek_jump))).2).1)
          cc pc delim with
      | error e =>
        cases e with
        | endOfFile =>
          simp only [hg] at h
          simp only [Except.ok.injEq, Prod.mk.injEq] at h
          obtain ⟨hout, henc⟩ := h
          subst hout
          subst henc
          exact ⟨fun c k hk => hk, [], by simp, List.Chain.nil⟩
        | malformed => simp only [hg] at h; exact absurd h (by simp)
      | ok curLocus =>
        simp only [hg] at h
        cases hd : dupSkip content cc pc delim (content.length + 1) curLocus
            (readline content
              (readline content (pyTrunc (Frac.add (Frac.ofNat cur) seek_jump))).2).2 with
        | error e =>
          simp only [hd] at h
          cases e with
          | endOfFile =>
            simp only [Except.ok.injEq, Prod.mk.injEq] at h
            obtain ⟨hout, henc⟩ := h
            subst hout
            subst henc
            exact ⟨fun c k hk => hk, [], by simp, List.Chain.nil⟩
          | assertColsEqual => exact absurd h (by simp)
          | malformed => exact absurd h (by simp)
          | notSorted => exact absurd h (by simp)
          | fuel => exact absurd h (by simp)
        | ok trip =>
          simp only [hd] at h
          obtain ⟨nxt, tell, rest⟩ := trip
          rcases hel : encode_locus enc nxt.1 nxt.2 with ⟨code, enc'⟩
          simp only [hel] at h
          have hsub1 : ∀ c k, lookupChrom enc.chromosomes c = some k →
              lookupChrom enc'.chromosomes c = some k := by
            intro c k hk
            have := encode_locus_submap enc nxt.1 nxt.2 c k hk
            rw [hel] at this
            exact this
          rcases le_or_lt lastE.1 code with hge | hlt
          · simp only [sparseUpdate_of_ge idx lastE code tell hlast hge] at h
            have hlast' : (idx ++ [(code, tell)]).getLast? = some (code, tell) := by simp
            obtain ⟨hsub, suf', hout, hchain'⟩ := ih tell (idx ++ [(code, tell)]) enc'
              out encF (code, tell) h hlast'
            refine ⟨fun c k hk => hsub c k (hsub1 c k hk),
              (code, tell) :: suf', ?_, List.Chain.cons hge hchain'⟩
            rw [hout, List.append_assoc]
            rfl
          · rw [sparseUpdate_of_lt idx lastE code tell hlast hlt] at h
            simp at h
    · simp only [Except.ok.injEq, Prod.mk.injEq] at h
      obtain ⟨hout, henc⟩ := h
      subst hout
      subst henc
      exact ⟨fun c k hk => hk, [], by simp, List.Chain.nil⟩

/-- C4 (amended): for every successful `build_index` invocation — dense or
sparse — the first entry is the locus of the first data line of the
source: its offset is the data start, and its code is exactly the
encoding (under the persisted chromosome-code map) of the locus that the
first data line decodes to.  The entry array is sorted non-strictly
ascending by code; in dense mode (`index_rate == 1`) the array is
additionally strictly ascending and every entry's offset holds a line
decoding to a locus that occurs at no earlier data line and whose
encoding under the persisted map is exactly the entry's code — so
repeated identical loci get at most one entry, holding the earliest byte
offset.  (In sparse mode strict ascent and deduplication can fail on
sources violating the sortedness precondition; see the
counterexample.) -/
theorem build_entries_invariant (content : List Char) (p : BuildParams) (info : Info)
    (entries : List (Int × Nat)) (start : Nat)
    (hb : buildScan content p = .ok (info, entries))
    (hs : dataStart content p = .ok start) :
    (∃ ch1 ps1 k1, locusAt content info start = .ok (ch1, ps1) ∧
      lookupChrom info.chrom_codes ch1 = some k1 ∧
      entries.head? = some (k1 * MAGIC_NUMBER + ps1, start)) ∧
    List.Chain' (· ≤ ·) (entries.map Prod.fst) ∧
    (Frac.valEq p.index_rate (Frac.ofInt 1) = true →
      List.Chain' (· < ·) (entries.map Prod.fst) ∧
      ∀ e ∈ entries, ∃ ch ps k,
        locusAt content info e.2 = .ok (ch, ps) ∧
        lookupChrom info.chrom_codes ch = some k ∧
        e.1 = k * MAGIC_NUMBER + ps ∧
        ∀ o ∈ lineStartsFrom content (content.length + 1) start, o < e.2 →
          locusAt content info o ≠ .ok (ch, ps)) := by
  by_cases hcc : p.chrom_col = p.pos_col
  · rw [buildScan, if_pos hcc] at hb
    exact absurd hb (by simp)
  · simp only [buildScan, hs] at hb
    rw [if_neg hcc] at hb
    cases hline1 : get_locus (readline content start).1 p.chrom_col p.pos_col
        p.delimiter with
    | error e =>
      simp only [hline1] at hb
      exact absurd hb (by simp)
    | ok v =>
      obtain ⟨chrom1, posn1⟩ := v
      simp only [hline1] at hb
      have hel : encode_locus ⟨0, []⟩ chrom1 posn1 =
          (1 * MAGIC_NUMBER + posn1, ⟨1, [(chrom1, 1)]⟩) := by
        simp [encode_locus, lookupChrom]
      simp only [hel] at hb
      have hlk1 : lookupChrom (EncState.mk 1 [(chrom1, 1)]).chromosomes chrom1 =
          some 1 := by
        simp [lookupChrom]
      by_cases hrate : Frac.valEq p.index_rate (Frac.ofInt 1) = true
      · rw [if_pos hrate] at hb
        cases hloop : denseLoop content p.chrom_col p.pos_col p.delimiter
            (content.length + 1) (readline content start).2
            [(1 * MAGIC_NUMBER + posn1, start)] ⟨1, [(chrom1, 1)]⟩ with
        | error e =>
          simp only [hloop] at hb
          exact absurd hb (by simp)
        | ok res =>
          obtain ⟨index, encF⟩ := res
          simp only [hloop] at hb
          simp only [Except.ok.injEq, Prod.mk.injEq] at hb
          obtain ⟨hinfo, hentries⟩ := hb
          replace hentries := hentries.symm
          subst hentries
          subst hinfo
          obtain ⟨hsub, suf, hout, hchain, hent⟩ :=
            denseLoop_inv content p.chrom_col p.pos_col p.delimiter
              (content.length + 1) (readline content start).2
              [(1 * MAGIC_NUMBER + posn1, start)] ⟨1, [(chrom1, 1)]⟩
              entries encF (1 * MAGIC_NUMBER + posn1, start) hloop rfl
          have hkF1 : lookupChrom encF.chromosomes chrom1 = some 1 := hsub _ _ hlk1
          have hline1ne : (readline content start).1 ≠ "" :=
            get_locus_ok_ne_empty _ _ _ _ _ hline1
          have hcons1 := lineStartsFrom_cons content start hline1ne
          have hstrict : List.Chain' (· < ·) (entries.map Prod.fst) := by
            rw [hout]
            exact hchain
          refine ⟨⟨chrom1, posn1, 1, hline1, hkF1, by rw [hout]; rfl⟩,
            hstrict.imp (fun a b hab => le_of_lt hab), fun _ => ⟨hstrict, ?_⟩⟩
          intro e he
          rw [hout] at he
          rcases List.mem_cons.mp he with rfl | hesuf
          · refine ⟨chrom1, posn1, 1, hline1, hkF1, rfl, ?_⟩
            intro o ho holt
            have := lineStartsFrom_mem_ge content _ start o ho
            omega
          · obtain ⟨hmem, che, pse, ke, hge, hke, hcodee, hearliest⟩ := hent e hesuf
            refine ⟨che, pse, ke, hge, hke, hcodee, ?_⟩
            intro o ho holt
            rw [hcons1] at ho
            rcases List.mem_cons.mp ho with rfl | hotail
            · intro habs
              unfold locusAt at habs
              rw [hline1] at habs
              simp only [Except.ok.injEq, Prod.mk.injEq] at habs
              obtain ⟨hch, hpl⟩ := habs
              rw [hch] at hkF1
              rw [hkF1] at hke
              simp only [Option.some.injEq] at hke
              have hee : e.1 = 1 * MAGIC_NUMBER + posn1 := by
                rw [hcodee, ← hke, hpl]
              have hgt2 := chain_lt_of_mem (1 * MAGIC_NUMBER + posn1)
                (suf.map Prod.fst) hchain e.1 (List.mem_map.mpr ⟨e, hesuf, rfl⟩)
              omega
            · exact hearliest o hotail holt
      · rw [if_neg hrate] at hb
        cases hloop : sparseLoop content p.chrom_col p.pos_col p.delimiter
            (Frac.div (Frac.ofNat (content.length - start))
              (Frac.mul p.index_rate
                (Frac.div (Frac.ofNat (content.length - start))
                  (meanLineLength content start (content.length - start)))))
            start (content.length - start) (content.length + 2)
            (readline content start).2
            [(1 * MAGIC_NUMBER + posn1, start)] ⟨1, [(chrom1, 1)]⟩ with
        | error e =>
          simp only [hloop] at hb
          exact absurd hb (by simp)
        | ok res =>
          obtain ⟨index, encF⟩ := res
          simp only [hloop] at hb
          simp only [Except.ok.injEq, Prod.mk.injEq] at hb
          obtain ⟨hinfo, hentries⟩ := hb
          replace hentries := hentries.symm
          subst hentries
          subst hinfo
          obtain ⟨hsub, suf, hout, hchain⟩ :=
            sparseLoop_inv content p.chrom_col p.pos_col p.delimiter _ start
              (content.length - start) (content.length + 2)
              (readline content start).2
              [(1 * MAGIC_NUMBER + posn1, start)] ⟨1, [(chrom1, 1)]⟩
              entries encF (1 * MAGIC_NUMBER + posn1, start) hloop rfl
          have hkF1 : lookupChrom encF.chromosomes chrom1 = some 1 := hsub _ _ hlk1
          refine ⟨⟨chrom1, posn1, 1, hline1, hkF1, by rw [hout]; rfl⟩, ?_,
            fun hr => absurd hr hrate⟩
          rw [hout]
          exact hchain

/-- C4 witness: the dense fixture build satisfies the amended invariant at
its concrete result. -/
theorem build_entries_invariant_witness :
    (∃ ch1 ps1 k1,
      locusAt denseFile ⟨0, 1, "\t", [("1", 1), ("2", 2)]⟩ 0 = .ok (ch1, ps1) ∧
      lookupChrom [("1", 1), ("2", 2)] ch1 = some k1 ∧
      ([((1000000005 : Int), (0 : Nat)), (1000000007, 8),
        (2000000003, 12)]).head? = some (k1 * MAGIC_NUMBER + ps1, 0)) ∧
    List.Chain' (· ≤ ·)
      (([((1000000005 : Int), (0 : Nat)), (1000000007, 8),
        (2000000003, 12)]).map Prod.fst) ∧
    (Frac.valEq denseParams.index_rate (Frac.ofInt 1) = true →
      List.Chain' (· < ·)
        (([((1000000005 : Int), (0 : Nat)), (1000000007, 8),
          (2000000003, 12)]).map Prod.fst) ∧
      ∀ e ∈ [((1000000005 : Int), (0 : Nat)), (1000000007, 8), (2000000003, 12)],
        ∃ ch ps k,
          locusAt denseFile ⟨0, 1, "\t", [("1", 1), ("2", 2)]⟩ e.2 = .ok (ch, ps) ∧
          lookupChrom [("1", 1), ("2", 2)] ch = some k ∧
          e.1 = k * MAGIC_NUMBER + ps ∧
          ∀ o ∈ lineStartsFrom denseFile (denseFile.length + 1) 0, o < e.2 →
            locusAt denseFile ⟨0, 1, "\t", [("1", 1), ("2", 2)]⟩ o ≠ .ok (ch, ps)) :=
  build_entries_invariant denseFile denseParams ⟨0, 1, "\t", [("1", 1), ("2", 2)]⟩
    [(1000000005, 0), (1000000007, 8), (2000000003, 12)] 0 (by rfl) (by rfl)

end GepytoIndex
